import Mathlib

/-!
Verification of the vibecraft-framework module dependency subsystem and
phase-state machine.

Shallow embedding of:
* `src/vibecraft/modes/modular/dependency_analyzer.py` (graph construction,
  cycle detection, topological build order, dependency validation),
* `src/vibecraft/modes/modular/module_registry.py` (registry CRUD),
* `src/vibecraft/context_manager.py` (`_next_phase`, `complete_skill`,
  `complete_phase`),
* `src/vibecraft/core/exceptions.py` (error taxonomy, modelled as an
  inductive error type).

Python dict/JSON state is modelled by explicit records; raising code is
modelled with `Except`; the wall-clock timestamps that the Python code reads
from `datetime.now` are passed in as explicit arguments.  The two networkx
library routines used by `dependency_analyzer.py` (`nx.find_cycle` and
`nx.topological_sort`) are modelled by one executable Kahn elimination
engine; theorems below prove that the model's `has_cycle` decides exactly
"the edge relation admits a directed cycle", which is the documented
extensional contract of `nx.find_cycle`, and that the produced order is a
topological order of the constructed graph, the documented contract of
`nx.topological_sort`.
-/

namespace Vibecraft

/-! ## Data model -/

/-- One record of the `modules` list of `.vibecraft/modules-registry.json`
(the dict produced by `ModuleRegistry._module_to_dict`). -/
structure ModuleRecord where
  name : String
  path : String := ""
  status : String := "planned"
  description : String := ""
  dependencies : List String := []
  exports : List String := []
  phases_completed : List Int := []
  created_at : Option String := none
  metadata : Option (List (String × String)) := none
deriving DecidableEq

/-- The pydantic `Module` model of `src/vibecraft/core/config.py`, restricted
to the fields the registry serialises.  `created_at` is a `datetime` in the
source; it is modelled by its ISO string.  `metadata` is an opaque dict,
modelled as an association list. -/
structure ConfigModule where
  name : String
  description : String := ""
  path : String := ""
  status : String := "planned"
  dependencies : List String := []
  exports : List String := []
  created_at : String := ""
  phases_completed : List Int := []
  metadata : Option (List (String × String)) := none
deriving DecidableEq

/-- The error taxonomy of `src/vibecraft/core/exceptions.py`, restricted to
the kinds raised by the embedded code.  In the source
`CyclicDependencyError` and `MissingDependencyError` are subclasses of
`DependencyError < ModuleError`; here each carries its message. -/
inductive VibecraftError where
  | moduleError (msg : String)
  | cyclicDependencyError (msg : String)
  | missingDependencyError (msg : String)
deriving DecidableEq

deriving instance DecidableEq for Except

/-! ## Dependency analyzer (`dependency_analyzer.py`) -/

/-- A networkx `DiGraph` as used by the analyzer: node list in insertion
order without duplicates, edge list without duplicates. -/
structure DiGraph where
  nodes : List String := []
  edges : List (String × String) := []
deriving DecidableEq

/-- `graph.add_node(n)`: inserts `n` if not already present. -/
def addNode (g : DiGraph) (n : String) : DiGraph :=
  if n ∈ g.nodes then g else { g with nodes := g.nodes ++ [n] }

/-- `graph.add_edge(u, v)`: inserts both endpoints as nodes if missing, then
the edge if missing. -/
def addEdge (g : DiGraph) (u v : String) : DiGraph :=
  let g1 := addNode (addNode g u) v
  if (u, v) ∈ g1.edges then g1 else { g1 with edges := g1.edges ++ [(u, v)] }

/-- `DependencyAnalyzer._build_graph`: every module name becomes a node, and
for every module `m` and every `dep` in `m.dependencies` the edge
`dep -> m.name` is added (edges point from dependency to dependent). -/
def build_graph (modules : List ModuleRecord) : DiGraph :=
  let g0 := modules.foldl (fun g m => addNode g m.name) {}
  modules.foldl (fun g m => m.dependencies.foldl (fun g d => addEdge g d m.name) g) g0

/-- Kahn elimination with explicit fuel (called with fuel = number of
nodes): repeatedly output the first remaining node with no incoming edge,
dropping its outgoing edges; returns `none` when stuck on a nonempty
remainder, i.e. when every remaining node lies on or behind a cycle. -/
def kahnAux : Nat → List String → List (String × String) → Option (List String)
  | 0, ns, _ => if ns.isEmpty then some [] else none
  | fuel + 1, ns, es =>
    match ns.find? (fun v => !(es.any (fun e => e.2 == v))) with
    | none => if ns.isEmpty then some [] else none
    | some v => (kahnAux fuel (ns.erase v) (es.filter (fun e => !(e.1 == v)))).map (v :: ·)

/-- Model of `nx.topological_sort` on the constructed graph: `some` order on
an acyclic graph, `none` on a cyclic one. -/
def topoSort (g : DiGraph) : Option (List String) :=
  kahnAux g.nodes.length g.nodes g.edges

/-- `DependencyAnalyzer.has_cycle`: model of the `nx.find_cycle` probe — true
exactly when no topological elimination exists.  Total (never raises). -/
def has_cycle (g : DiGraph) : Bool :=
  (topoSort g).isNone

/-- `DependencyAnalyzer.get_build_order`: raises `CyclicDependencyError` when
`has_cycle()` holds, otherwise returns `list(nx.topological_sort(graph))`. -/
def get_build_order (modules : List ModuleRecord) : Except VibecraftError (List String) :=
  let g := build_graph modules
  if has_cycle g then
    Except.error (VibecraftError.cyclicDependencyError
      "Cannot determine build order: circular dependencies detected")
  else
    Except.ok ((topoSort g).getD [])

/-- Referential scan of `validate_dependencies`: first `(module name, dep)`
pair, in declaration order, whose `dep` is not a known module name. -/
def findMissing (names : List String) : List ModuleRecord → Option (String × String)
  | [] => none
  | m :: rest =>
    match m.dependencies.find? (fun d => !(names.contains d)) with
    | some d => some (m.name, d)
    | none => findMissing names rest

/-- `DependencyAnalyzer.validate_dependencies`: referential check first
(raising `MissingDependencyError` naming module and dependency), then the
cycle check (raising `CyclicDependencyError`). -/
def validate_dependencies (modules : List ModuleRecord) : Except VibecraftError Unit :=
  match findMissing (modules.map ModuleRecord.name) modules with
  | some (mn, d) =>
    Except.error (VibecraftError.missingDependencyError
      ("Module '" ++ mn ++ "' depends on non-existent module '" ++ d ++ "'"))
  | none =>
    if has_cycle (build_graph modules) then
      Except.error (VibecraftError.cyclicDependencyError "Circular dependencies detected")
    else
      Except.ok ()

/-! ## Module registry (`module_registry.py`)

The registry state is the parsed JSON document; cache and file are kept
write-through-identical by the source, so one value models both. -/

/-- The registry JSON document: `modules` plus the two reserved unused
fields. -/
structure RegistryData where
  modules : List ModuleRecord := []
  dependencies : List (String × List String) := []
  build_order : List String := []
deriving DecidableEq

/-- `ModuleRegistry.has_module` via `get_by_name`: first record with the
name, if any. -/
def has_module (st : RegistryData) (name : String) : Bool :=
  (st.modules.find? (fun r => r.name == name)).isSome

/-- `ModuleRegistry._module_to_dict`: serialise a `Module`; `path` defaults
to `modules/<name>` when falsy; `created_at` is always serialised (a
`datetime` is always truthy). -/
def module_to_dict (m : ConfigModule) : ModuleRecord :=
  { name := m.name
    path := if m.path = "" then "modules/" ++ m.name else m.path
    status := m.status
    description := m.description
    dependencies := m.dependencies
    exports := m.exports
    phases_completed := m.phases_completed
    created_at := some m.created_at
    metadata := m.metadata }

/-- `ModuleRegistry.add_module` (any calling style ends with the same
`Module` value): silent no-op when the name already exists, otherwise append
the serialised record. -/
def add_module (st : RegistryData) (m : ConfigModule) : RegistryData :=
  if has_module st m.name then st
  else { st with modules := st.modules ++ [module_to_dict m] }

/-- The `**kwargs` of a legacy-style `update_module` call, restricted to the
registry's record fields: `some` = the field is among the kwargs. -/
structure ModuleUpdate where
  name : Option String := none
  path : Option String := none
  status : Option String := none
  description : Option String := none
  dependencies : Option (List String) := none
  exports : Option (List String) := none
  phases_completed : Option (List Int) := none
  created_at : Option (Option String) := none
  metadata : Option (Option (List (String × String))) := none
deriving DecidableEq

/-- `data["modules"][i][key] = value` for each kwarg: specified fields are
overwritten, unspecified fields kept. -/
def applyUpdate (r : ModuleRecord) (u : ModuleUpdate) : ModuleRecord :=
  { name := u.name.getD r.name
    path := u.path.getD r.path
    status := u.status.getD r.status
    description := u.description.getD r.description
    dependencies := u.dependencies.getD r.dependencies
    exports := u.exports.getD r.exports
    phases_completed := u.phases_completed.getD r.phases_completed
    created_at := u.created_at.getD r.created_at
    metadata := u.metadata.getD r.metadata }

/-- Update the first record named `name`, or `none` if there is none. -/
def updateFirst (name : String) (u : ModuleUpdate) : List ModuleRecord → Option (List ModuleRecord)
  | [] => none
  | r :: rest =>
    if r.name = name then some (applyUpdate r u :: rest)
    else (updateFirst name u rest).map (r :: ·)

/-- `ModuleRegistry.update_module` (legacy style `update_module(name,
**kwargs)`): updates the first matching record in place; raises
`ModuleError` when the name is absent (in which case the loop mutated
nothing, so the state is unchanged). -/
def update_module (st : RegistryData) (name : String) (u : ModuleUpdate) :
    Except VibecraftError RegistryData :=
  match updateFirst name u st.modules with
  | some ms => Except.ok { st with modules := ms }
  | none => Except.error (VibecraftError.moduleError ("Module '" ++ name ++ "' not found"))

/-- Replace the first record named `name` by `r1`, or `none` if absent. -/
def replaceFirst (name : String) (r1 : ModuleRecord) : List ModuleRecord → Option (List ModuleRecord)
  | [] => none
  | r :: rest =>
    if r.name = name then some (r1 :: rest)
    else (replaceFirst name r1 rest).map (r :: ·)

/-- `ModuleRegistry.update_module` (new style `update_module(module)`):
replaces the first record with the module's name by the full serialised
module; raises `ModuleError` when absent. -/
def update_module_obj (st : RegistryData) (m : ConfigModule) :
    Except VibecraftError RegistryData :=
  match replaceFirst m.name (module_to_dict m) st.modules with
  | some ms => Except.ok { st with modules := ms }
  | none => Except.error (VibecraftError.moduleError ("Module '" ++ m.name ++ "' not found"))

/-- `ModuleRegistry.remove_module`: raises `ModuleError` when the name is
absent (before any mutation), otherwise drops every record with the name. -/
def remove_module (st : RegistryData) (name : String) : Except VibecraftError RegistryData :=
  if !(has_module st name) then
    Except.error (VibecraftError.moduleError ("Module '" ++ name ++ "' not found"))
  else
    Except.ok { st with modules := st.modules.filter (fun r => !(r.name == name)) }

/-! ## Context manager (`context_manager.py`) -/

/-- The `_SKILL_TO_PHASE` table. -/
def SKILL_TO_PHASE : List (String × String) :=
  [("research_skill", "research"), ("design_skill", "design"),
   ("plan_skill", "plan"), ("review_skill", "review")]

/-- The manifest fields used by phase tracking (`manifest.json`);
`total_implement_phases = 0` models both the value `0` and an absent key
(`manifest.get("total_implement_phases", 0)`). -/
structure Manifest where
  phases : List String := []
  phases_completed : List String := []
  total_implement_phases : Nat := 0
  current_phase : String := ""
  updated_at : String := ""
deriving DecidableEq

/-- Python's single-character `str.split` (`entry.split("_")`), on character
lists: always returns a nonempty list of segments. -/
def splitOnChar (c : Char) : List Char → List (List Char)
  | [] => [[]]
  | x :: xs =>
    let r := splitOnChar c xs
    if x = c then [] :: r
    else
      match r with
      | [] => [[x]]
      | seg :: rest => (x :: seg) :: rest

/-- `entry.split("_")[-1]`: the last segment. -/
def pySplitLast (s : String) : String :=
  String.mk ((splitOnChar '_' s.data).getLastD [])

/-- `str.startswith`, on character lists. -/
def pyStartsWith (s pre : String) : Bool :=
  pre.data.isPrefixOf s.data

/-- A Python `set` of strings modelled as a duplicate-free list (`set.add`);
also the source's guarded list append
(`if key not in manifest["phases_completed"]: ... .append(key)`). -/
def insertIfAbsent (l : List String) (x : String) : List String :=
  if l.contains x then l else l ++ [x]

/-- The scanning loop of `ContextManager._next_phase`: builds
(`completed_logical`, `implement_phases_done`).  The branch order mirrors
the source: `implement_phase_` prefix first, then the explicit
`"implement"` marker, then the `_SKILL_TO_PHASE` table, then the raw-name
fallback. -/
def phaseScan : List String → List String → List String → List String × List String
  | [], logical, impl => (logical, impl)
  | e :: rest, logical, impl =>
    if pyStartsWith e "implement_phase_" then
      phaseScan rest logical (insertIfAbsent impl (pySplitLast e))
    else if e == "implement" then
      phaseScan rest (insertIfAbsent logical "implement") impl
    else
      match SKILL_TO_PHASE.lookup e with
      | some p => phaseScan rest (insertIfAbsent logical p) impl
      | none => phaseScan rest (insertIfAbsent logical e) impl

/-- `ContextManager._next_phase`: scan the completion markers, close
`implement` when `total_implement_phases` is positive and the number of
distinct recorded sub-phase suffixes reaches it, then return the first
phase not in the logical completed set, or `"done"`. -/
def next_phase (m : Manifest) : String :=
  let sc := phaseScan m.phases_completed [] []
  let logical2 :=
    if 0 < m.total_implement_phases ∧ m.total_implement_phases ≤ sc.2.length then
      insertIfAbsent sc.1 "implement"
    else sc.1
  (m.phases.find? (fun p => !(logical2.contains p))).getD "done"

/-- The key built by `complete_skill`:
`f"{skill_name}_phase_{phase}" if phase else skill_name` — Python truthiness
makes both `None` and `0` fall back to the bare skill name. -/
def skillKey (skill_name : String) (phase : Option Int) : String :=
  match phase with
  | some p => if p = 0 then skill_name else skill_name ++ "_phase_" ++ toString p
  | none => skill_name

/-- `ContextManager.complete_skill(skill_name, phase=None)`: the key is
appended if absent, then `current_phase` and `updated_at` are recomputed
(`now` stands for the wall-clock timestamp). -/
def complete_skill (m : Manifest) (skill_name : String) (phase : Option Int) (now : String) :
    Manifest :=
  let m1 := { m with
    phases_completed := insertIfAbsent m.phases_completed (skillKey skill_name phase) }
  { m1 with current_phase := next_phase m1, updated_at := now }

/-- `ContextManager.complete_phase(phase)`: appends
`implement_phase_<phase>` if absent, then recomputes `current_phase` and
`updated_at`. -/
def complete_phase (m : Manifest) (phase : Int) (now : String) : Manifest :=
  let m1 := { m with
    phases_completed := insertIfAbsent m.phases_completed ("implement_phase_" ++ toString phase) }
  { m1 with current_phase := next_phase m1, updated_at := now }

/-- A completion event, for stating closure under arbitrary call
sequences. -/
inductive PhaseOp where
  | skillOp (skill_name : String) (phase : Option Int) (now : String)
  | phaseOp (phase : Int) (now : String)
deriving DecidableEq

/-- Apply one completion event. -/
def applyPhaseOp (m : Manifest) : PhaseOp → Manifest
  | PhaseOp.skillOp s p now => complete_skill m s p now
  | PhaseOp.phaseOp p now => complete_phase m p now

/-! ## Specification-side definitions

These follow the wording of the spec (§4.3, §7, §8) and are compared with
the embedded code by the theorems below. -/

/-- Spec §4.3: translate a non-sub-phase completion marker to its logical
phase: known skill identifiers map through the table, any other entry is
already a raw logical phase name (this also covers the explicit
`"implement"` marker). -/
def specSkillToPhase (e : String) : String :=
  match SKILL_TO_PHASE.lookup e with
  | some p => p
  | none => e

/-- Spec §4.3: the number of distinct `implement_phase_<N>` suffixes
recorded. -/
def specImplCount (m : Manifest) : Nat :=
  (((m.phases_completed.filter (fun e => pyStartsWith e "implement_phase_")).map
    pySplitLast).dedup).length

/-- Spec §4.3: the logical completed-phase set, as a Boolean predicate:
a phase is completed when some non-sub-phase marker translates to it, or it
is `implement`, `total_implement_phases` is positive, and the distinct
sub-phase count reaches it. -/
def specCompletedB (m : Manifest) (p : String) : Bool :=
  (m.phases_completed.any
    (fun e => !(pyStartsWith e "implement_phase_") && (specSkillToPhase e == p)))
  || ((p == "implement") && decide (0 < m.total_implement_phases)
       && decide (m.total_implement_phases ≤ specImplCount m))

/-- A directed path of one or more edges of `es`. -/
inductive EdgePath (es : List (String × String)) : String → String → Prop
  | single {u v : String} : (u, v) ∈ es → EdgePath es u v
  | cons {u w v : String} : (u, w) ∈ es → EdgePath es w v → EdgePath es u v

/-- The edge relation admits a directed cycle (a nonempty closed path). -/
def HasCycleSpec (es : List (String × String)) : Prop :=
  ∃ v, EdgePath es v v

/-- `t` occurs as a contiguous substring of `s` (used for the error-message
claims). -/
def StrContains (s t : String) : Prop :=
  ∃ a b, s = a ++ t ++ b

end Vibecraft

/-! ## Helper lemmas: list sets -/

namespace Vibecraft

theorem mem_insertIfAbsent (l : List String) (y x : String) :
    x ∈ insertIfAbsent l y ↔ x ∈ l ∨ x = y := by
  unfold insertIfAbsent
  by_cases h : y ∈ l
  · rw [if_pos (List.elem_iff.mpr h)]
    constructor
    · exact Or.inl
    · rintro (hx | rfl)
      exacts [hx, h]
  · rw [if_neg (fun hc => h (List.elem_iff.mp hc))]
    simp [List.mem_append]

theorem nodup_insertIfAbsent (l : List String) (y : String) (h : l.Nodup) :
    (insertIfAbsent l y).Nodup := by
  unfold insertIfAbsent
  by_cases hy : y ∈ l
  · rw [if_pos (List.elem_iff.mpr hy)]
    exact h
  · rw [if_neg (fun hc => hy (List.elem_iff.mp hc))]
    simp [List.nodup_append, h, hy]

theorem length_insertIfAbsent_mem (l : List String) (y : String) (h : y ∈ l) :
    (insertIfAbsent l y).length = l.length := by
  unfold insertIfAbsent
  rw [if_pos (List.elem_iff.mpr h)]

/-! ## Helper lemmas: graph construction -/

theorem addNode_nodes_mem (g : DiGraph) (n x : String) :
    x ∈ (addNode g n).nodes ↔ x ∈ g.nodes ∨ x = n := by
  unfold addNode
  by_cases h : n ∈ g.nodes
  · rw [if_pos h]
    constructor
    · exact Or.inl
    · rintro (hx | rfl)
      exacts [hx, h]
  · rw [if_neg h]
    simp [List.mem_append]

theorem addNode_edges (g : DiGraph) (n : String) : (addNode g n).edges = g.edges := by
  unfold addNode
  split <;> rfl

theorem addNode_nodup (g : DiGraph) (n : String) (h : g.nodes.Nodup) :
    (addNode g n).nodes.Nodup := by
  unfold addNode
  by_cases hn : n ∈ g.nodes
  · rw [if_pos hn]; exact h
  · rw [if_neg hn]
    simp [List.nodup_append, h, hn]

theorem addEdge_nodes (g : DiGraph) (u v : String) :
    (addEdge g u v).nodes = (addNode (addNode g u) v).nodes := by
  unfold addEdge
  dsimp only
  split <;> rfl

theorem addEdge_nodes_mem (g : DiGraph) (u v x : String) :
    x ∈ (addEdge g u v).nodes ↔ x ∈ g.nodes ∨ x = u ∨ x = v := by
  rw [addEdge_nodes, addNode_nodes_mem, addNode_nodes_mem]
  tauto

theorem addEdge_edges_mem (g : DiGraph) (u v : String) (e : String × String) :
    e ∈ (addEdge g u v).edges ↔ e ∈ g.edges ∨ e = (u, v) := by
  unfold addEdge
  dsimp only
  have he : (addNode (addNode g u) v).edges = g.edges := by
    rw [addNode_edges, addNode_edges]
  by_cases h : (u, v) ∈ (addNode (addNode g u) v).edges
  · rw [if_pos h, he]
    rw [he] at h
    constructor
    · exact Or.inl
    · rintro (hx | rfl)
      exacts [hx, h]
  · rw [if_neg h]
    dsimp only
    rw [he]
    simp [List.mem_append]

theorem addEdge_nodup (g : DiGraph) (u v : String) (h : g.nodes.Nodup) :
    (addEdge g u v).nodes.Nodup := by
  rw [addEdge_nodes]
  exact addNode_nodup _ _ (addNode_nodup _ _ h)

theorem namesFold_nodes_mem (ms : List ModuleRecord) (g : DiGraph) (x : String) :
    x ∈ (ms.foldl (fun g m => addNode g m.name) g).nodes ↔
      x ∈ g.nodes ∨ ∃ m ∈ ms, m.name = x := by
  induction ms generalizing g with
  | nil => simp
  | cons m rest ih =>
    rw [List.foldl_cons, ih, addNode_nodes_mem]
    constructor
    · rintro ((hg | rfl) | ⟨m1, hm1, rfl⟩)
      · exact Or.inl hg
      · exact Or.inr ⟨m, List.mem_cons_self m rest, rfl⟩
      · exact Or.inr ⟨m1, List.mem_cons_of_mem _ hm1, rfl⟩
    · rintro (hg | ⟨m1, hm1, rfl⟩)
      · exact Or.inl (Or.inl hg)
      · rcases List.mem_cons.mp hm1 with rfl | hm1
        · exact Or.inl (Or.inr rfl)
        · exact Or.inr ⟨m1, hm1, rfl⟩

theorem namesFold_edges (ms : List ModuleRecord) (g : DiGraph) :
    (ms.foldl (fun g m => addNode g m.name) g).edges = g.edges := by
  induction ms generalizing g with
  | nil => rfl
  | cons m rest ih => rw [List.foldl_cons, ih, addNode_edges]

theorem namesFold_nodup (ms : List ModuleRecord) (g : DiGraph) (h : g.nodes.Nodup) :
    (ms.foldl (fun g m => addNode g m.name) g).nodes.Nodup := by
  induction ms generalizing g with
  | nil => exact h
  | cons m rest ih => exact ih _ (addNode_nodup _ _ h)

theorem depsFold_nodes_sub (deps : List String) (v : String) (g : DiGraph) (x : String)
    (hx : x ∈ g.nodes) : x ∈ (deps.foldl (fun g d => addEdge g d v) g).nodes := by
  induction deps generalizing g with
  | nil => exact hx
  | cons d rest ih =>
    exact ih _ ((addEdge_nodes_mem g d v x).mpr (Or.inl hx))

theorem depsFold_nodes_mem (deps : List String) (v : String) (g : DiGraph) (x : String)
    (hx : x ∈ (deps.foldl (fun g d => addEdge g d v) g).nodes) :
    x ∈ g.nodes ∨ x ∈ deps ∨ x = v := by
  induction deps generalizing g with
  | nil => exact Or.inl hx
  | cons d rest ih =>
    rcases ih _ hx with h1 | h2 | h3
    · rcases (addEdge_nodes_mem g d v x).mp h1 with hg | rfl | rfl
      · exact Or.inl hg
      · exact Or.inr (Or.inl (List.mem_cons_self _ _))
      · exact Or.inr (Or.inr rfl)
    · exact Or.inr (Or.inl (List.mem_cons_of_mem _ h2))
    · exact Or.inr (Or.inr h3)

theorem depsFold_mem_dep (deps : List String) (v d : String) (hd : d ∈ deps) :
    ∀ g : DiGraph, d ∈ (deps.foldl (fun g d => addEdge g d v) g).nodes := by
  induction deps with
  | nil => cases hd
  | cons d0 rest ih =>
    intro g
    rw [List.foldl_cons]
    rcases List.mem_cons.mp hd with rfl | hd2
    · exact depsFold_nodes_sub _ _ _ _ ((addEdge_nodes_mem g d v d).mpr (Or.inr (Or.inl rfl)))
    · exact ih hd2 _

theorem depsFold_edges_mem (deps : List String) (v : String) (g : DiGraph)
    (e : String × String) :
    e ∈ (deps.foldl (fun g d => addEdge g d v) g).edges ↔
      e ∈ g.edges ∨ ∃ d ∈ deps, e = (d, v) := by
  induction deps generalizing g with
  | nil => simp
  | cons d rest ih =>
    rw [List.foldl_cons, ih, addEdge_edges_mem]
    constructor
    · rintro ((hg | rfl) | ⟨d1, hd1, rfl⟩)
      · exact Or.inl hg
      · exact Or.inr ⟨d, List.mem_cons_self _ _, rfl⟩
      · exact Or.inr ⟨d1, List.mem_cons_of_mem _ hd1, rfl⟩
    · rintro (hg | ⟨d1, hd1, rfl⟩)
      · exact Or.inl (Or.inl hg)
      · rcases List.mem_cons.mp hd1 with rfl | hd1
        · exact Or.inl (Or.inr rfl)
        · exact Or.inr ⟨d1, hd1, rfl⟩

theorem depsFold_nodup (deps : List String) (v : String) (g : DiGraph)
    (h : g.nodes.Nodup) : (deps.foldl (fun g d => addEdge g d v) g).nodes.Nodup := by
  induction deps generalizing g with
  | nil => exact h
  | cons d rest ih => exact ih _ (addEdge_nodup _ _ _ h)

theorem modsFold_nodes_sub (ms : List ModuleRecord) (g : DiGraph) (x : String)
    (hx : x ∈ g.nodes) :
    x ∈ (ms.foldl (fun g m => m.dependencies.foldl (fun g d => addEdge g d m.name) g) g).nodes := by
  induction ms generalizing g with
  | nil => exact hx
  | cons m rest ih => exact ih _ (depsFold_nodes_sub _ _ _ _ hx)

theorem modsFold_nodes_mem (ms : List ModuleRecord) (g : DiGraph) (x : String)
    (hx : x ∈ (ms.foldl (fun g m => m.dependencies.foldl (fun g d => addEdge g d m.name) g) g).nodes) :
    x ∈ g.nodes ∨ ∃ m ∈ ms, x ∈ m.dependencies ∨ x = m.name := by
  induction ms generalizing g with
  | nil => exact Or.inl hx
  | cons m rest ih =>
    rcases ih _ hx with h1 | ⟨m1, hm1, h2⟩
    · rcases depsFold_nodes_mem _ _ _ _ h1 with hg | hd | hv
      · exact Or.inl hg
      · exact Or.inr ⟨m, List.mem_cons_self _ _, Or.inl hd⟩
      · exact Or.inr ⟨m, List.mem_cons_self _ _, Or.inr hv⟩
    · exact Or.inr ⟨m1, List.mem_cons_of_mem _ hm1, h2⟩

theorem modsFold_mem_dep (ms : List ModuleRecord) (m : ModuleRecord)
    (hm : m ∈ ms) (d : String) (hd : d ∈ m.dependencies) :
    ∀ g : DiGraph,
      d ∈ (ms.foldl (fun g m => m.dependencies.foldl (fun g d => addEdge g d m.name) g) g).nodes := by
  induction ms with
  | nil => cases hm
  | cons m0 rest ih =>
    intro g
    rw [List.foldl_cons]
    rcases List.mem_cons.mp hm with rfl | hm2
    · exact modsFold_nodes_sub _ _ _ (depsFold_mem_dep _ _ _ hd _)
    · exact ih hm2 _

theorem modsFold_edges_mem (ms : List ModuleRecord) (g : DiGraph) (e : String × String) :
    e ∈ (ms.foldl (fun g m => m.dependencies.foldl (fun g d => addEdge g d m.name) g) g).edges ↔
      e ∈ g.edges ∨ ∃ m ∈ ms, ∃ d ∈ m.dependencies, e = (d, m.name) := by
  induction ms generalizing g with
  | nil => simp
  | cons m rest ih =>
    rw [List.foldl_cons, ih, depsFold_edges_mem]
    constructor
    · rintro ((hg | ⟨d, hd, rfl⟩) | ⟨m1, hm1, d1, hd1, rfl⟩)
      · exact Or.inl hg
      · exact Or.inr ⟨m, List.mem_cons_self _ _, d, hd, rfl⟩
      · exact Or.inr ⟨m1, List.mem_cons_of_mem _ hm1, d1, hd1, rfl⟩
    · rintro (hg | ⟨m1, hm1, d1, hd1, rfl⟩)
      · exact Or.inl (Or.inl hg)
      · rcases List.mem_cons.mp hm1 with rfl | hm1
        · exact Or.inl (Or.inr ⟨d1, hd1, rfl⟩)
        · exact Or.inr ⟨m1, hm1, d1, hd1, rfl⟩

theorem modsFold_nodup (ms : List ModuleRecord) (g : DiGraph) (h : g.nodes.Nodup) :
    (ms.foldl (fun g m => m.dependencies.foldl (fun g d => addEdge g d m.name) g) g).nodes.Nodup := by
  induction ms generalizing g with
  | nil => exact h
  | cons m rest ih => exact ih _ (depsFold_nodup _ _ _ h)

theorem build_graph_nodes_mem (ms : List ModuleRecord) (x : String) :
    x ∈ (build_graph ms).nodes ↔
      (∃ m ∈ ms, m.name = x) ∨ ∃ m ∈ ms, x ∈ m.dependencies := by
  unfold build_graph
  constructor
  · intro hx
    rcases modsFold_nodes_mem _ _ _ hx with h1 | ⟨m, hm, hd | hv⟩
    · rcases (namesFold_nodes_mem _ _ _).mp h1 with h | h
      · cases h
      · exact Or.inl h
    · exact Or.inr ⟨m, hm, hd⟩
    · exact Or.inl ⟨m, hm, hv.symm⟩
  · rintro (⟨m, hm, rfl⟩ | ⟨m, hm, hd⟩)
    · exact modsFold_nodes_sub _ _ _ ((namesFold_nodes_mem _ _ _).mpr (Or.inr ⟨m, hm, rfl⟩))
    · exact modsFold_mem_dep _ m hm _ hd _

theorem build_graph_edges_mem (ms : List ModuleRecord) (e : String × String) :
    e ∈ (build_graph ms).edges ↔ ∃ m ∈ ms, ∃ d ∈ m.dependencies, e = (d, m.name) := by
  unfold build_graph
  rw [modsFold_edges_mem, namesFold_edges]
  simp

theorem build_graph_nodup (ms : List ModuleRecord) : (build_graph ms).nodes.Nodup := by
  unfold build_graph
  exact modsFold_nodup _ _ (namesFold_nodup _ _ List.nodup_nil)

theorem build_graph_inv (ms : List ModuleRecord) (e : String × String)
    (he : e ∈ (build_graph ms).edges) :
    e.1 ∈ (build_graph ms).nodes ∧ e.2 ∈ (build_graph ms).nodes := by
  rcases (build_graph_edges_mem ms e).mp he with ⟨m, hm, d, hd, rfl⟩
  constructor
  · exact (build_graph_nodes_mem ms d).mpr (Or.inr ⟨m, hm, hd⟩)
  · exact (build_graph_nodes_mem ms m.name).mpr (Or.inl ⟨m, hm, rfl⟩)

end Vibecraft

/-! ## Helper lemmas: the Kahn elimination engine -/

namespace Vibecraft

theorem no_incoming_of_found (es : List (String × String)) (ns : List String) (w : String)
    (hf : ns.find? (fun v => !(es.any (fun e => e.2 == v))) = some w) :
    ∀ e ∈ es, e.2 ≠ w := by
  have hwp := List.find?_some hf
  have hany : es.any (fun e => e.2 == w) = false := by
    cases hb : es.any (fun e => e.2 == w)
    · rfl
    · rw [hb] at hwp
      simp at hwp
  intro e he heq
  apply List.any_eq_false.mp hany e he
  rw [heq]
  exact beq_self_eq_true w

theorem filter_inv (es : List (String × String)) (ns : List String) (w : String)
    (hinv : ∀ e ∈ es, e.1 ∈ ns ∧ e.2 ∈ ns) (hno : ∀ e ∈ es, e.2 ≠ w) :
    ∀ e ∈ es.filter (fun e => !(e.1 == w)), e.1 ∈ ns.erase w ∧ e.2 ∈ ns.erase w := by
  intro e he
  rcases List.mem_filter.mp he with ⟨hes, hb⟩
  have h1 : e.1 ≠ w := by
    intro hh
    rw [hh] at hb
    simp at hb
  exact ⟨(List.mem_erase_of_ne h1).mpr (hinv e hes).1,
         (List.mem_erase_of_ne (hno e hes)).mpr (hinv e hes).2⟩

theorem kahnAux_perm (fuel : Nat) :
    ∀ ns es l, kahnAux fuel ns es = some l → l.Perm ns := by
  induction fuel with
  | zero =>
    intro ns es l h
    simp only [kahnAux] at h
    by_cases hns : ns.isEmpty = true
    · rw [if_pos hns] at h
      injection h with h
      subst h
      rw [List.isEmpty_iff.mp hns]
    · rw [if_neg hns] at h
      cases h
  | succ fuel ih =>
    intro ns es l h
    simp only [kahnAux] at h
    cases hf : ns.find? (fun v => !(es.any (fun e => e.2 == v))) with
    | none =>
      simp only [hf] at h
      by_cases hns : ns.isEmpty = true
      · rw [if_pos hns] at h
        injection h with h
        subst h
        rw [List.isEmpty_iff.mp hns]
      · rw [if_neg hns] at h
        cases h
    | some w =>
      simp only [hf] at h
      cases hk : kahnAux fuel (ns.erase w) (es.filter fun e => !(e.1 == w)) with
      | none =>
        rw [hk] at h
        simp at h
      | some l2 =>
        rw [hk] at h
        simp only [Option.map_some'] at h
        injection h with h
        subst h
        have hw : w ∈ ns := List.mem_of_find?_eq_some hf
        exact ((ih _ _ _ hk).cons w).trans (List.perm_cons_erase hw).symm

theorem kahnAux_sorted (fuel : Nat) :
    ∀ ns es l, kahnAux fuel ns es = some l →
      (∀ e ∈ es, e.1 ∈ ns ∧ e.2 ∈ ns) →
      ∀ u v, (u, v) ∈ es → l.indexOf u < l.indexOf v := by
  induction fuel with
  | zero =>
    intro ns es l h hinv u v huv
    by_cases hns : ns.isEmpty = true
    · have h1 := (hinv _ huv).1
      rw [List.isEmpty_iff.mp hns] at h1
      cases h1
    · simp only [kahnAux, if_neg hns] at h
      cases h
  | succ fuel ih =>
    intro ns es l h hinv u v huv
    simp only [kahnAux] at h
    cases hf : ns.find? (fun v => !(es.any (fun e => e.2 == v))) with
    | none =>
      simp only [hf] at h
      by_cases hns : ns.isEmpty = true
      · have h1 := (hinv _ huv).1
        rw [List.isEmpty_iff.mp hns] at h1
        cases h1
      · rw [if_neg hns] at h
        cases h
    | some w =>
      simp only [hf] at h
      cases hk : kahnAux fuel (ns.erase w) (es.filter fun e => !(e.1 == w)) with
      | none =>
        rw [hk] at h
        simp at h
      | some l2 =>
        rw [hk] at h
        simp only [Option.map_some'] at h
        injection h with h
        subst h
        have hno := no_incoming_of_found es ns w hf
        have hvw : v ≠ w := hno _ huv
        by_cases huw : u = w
        · subst huw
          rw [List.indexOf_cons_self, List.indexOf_cons_ne l2 (Ne.symm hvw)]
          exact Nat.succ_pos _
        · have hmem : (u, v) ∈ es.filter (fun e => !(e.1 == w)) := by
            rw [List.mem_filter]
            refine ⟨huv, ?_⟩
            simp [huw]
          have hlt := ih _ _ _ hk (filter_inv es ns w hinv hno) u v hmem
          rw [List.indexOf_cons_ne l2 (Ne.symm huw), List.indexOf_cons_ne l2 (Ne.symm hvw)]
          exact Nat.succ_lt_succ hlt

theorem edgePath_mono (es es2 : List (String × String)) (hsub : ∀ e ∈ es, e ∈ es2)
    (a b : String) (h : EdgePath es a b) : EdgePath es2 a b := by
  induction h with
  | single h1 => exact EdgePath.single (hsub _ h1)
  | cons h1 _ ih => exact EdgePath.cons (hsub _ h1) ih

theorem edgePath_indexOf (es : List (String × String)) (l : List String)
    (hord : ∀ u v, (u, v) ∈ es → l.indexOf u < l.indexOf v)
    (a b : String) (h : EdgePath es a b) : l.indexOf a < l.indexOf b := by
  induction h with
  | single h1 => exact hord _ _ h1
  | cons h1 _ ih => exact (hord _ _ h1).trans ih

theorem kahnAux_no_cycle (fuel : Nat) (ns : List String) (es : List (String × String))
    (l : List String) (h : kahnAux fuel ns es = some l)
    (hinv : ∀ e ∈ es, e.1 ∈ ns ∧ e.2 ∈ ns) : ¬ HasCycleSpec es := by
  rintro ⟨v, hv⟩
  exact absurd (edgePath_indexOf es l (kahnAux_sorted fuel ns es l h hinv) v v hv)
    (lt_irrefl _)

theorem cycle_of_all_have_pred (ns : List String) (es : List (String × String))
    (hne : ns ≠ []) (hpred : ∀ v ∈ ns, ∃ u, u ∈ ns ∧ (u, v) ∈ es) :
    HasCycleSpec es := by
  classical
  have hpred2 : ∀ v, ∃ u, v ∈ ns → u ∈ ns ∧ (u, v) ∈ es := by
    intro v
    by_cases hv : v ∈ ns
    · rcases hpred v hv with ⟨u, hu⟩
      exact ⟨u, fun _ => hu⟩
    · exact ⟨v, fun hh => absurd hh hv⟩
  obtain ⟨f, hf0⟩ := Classical.skolem.mp hpred2
  have hf : ∀ v ∈ ns, f v ∈ ns ∧ (f v, v) ∈ es := fun v hv => hf0 v hv
  obtain ⟨v0, hv0⟩ : ∃ v, v ∈ ns := by
    cases ns with
    | nil => exact absurd rfl hne
    | cons a t => exact ⟨a, List.mem_cons_self _ _⟩
  have hiter : ∀ k, f^[k] v0 ∈ ns := by
    intro k
    induction k with
    | zero => exact hv0
    | succ k ihk =>
      rw [Function.iterate_succ_apply']
      exact (hf _ ihk).1
  have hpath : ∀ i k, EdgePath es (f^[i + (k + 1)] v0) (f^[i] v0) := by
    intro i k
    induction k with
    | zero =>
      rw [Function.iterate_succ_apply']
      exact EdgePath.single (hf _ (hiter i)).2
    | succ k ihk =>
      have he : i + (k + 1 + 1) = (i + (k + 1)) + 1 := by omega
      rw [he, Function.iterate_succ_apply']
      exact EdgePath.cons (hf _ (hiter _)).2 ihk
  have key : ∀ a b : Nat, a < b → f^[a] v0 = f^[b] v0 → HasCycleSpec es := by
    intro a b hab he
    have hj : a + ((b - a - 1) + 1) = b := by omega
    have hp := hpath a (b - a - 1)
    rw [hj] at hp
    rw [← he] at hp
    exact ⟨_, hp⟩
  have hcard : ns.toFinset.card < (Finset.univ : Finset (Fin (ns.length + 1))).card := by
    have h1 : ns.toFinset.card ≤ ns.length := ns.toFinset_card_le
    have h2 : (Finset.univ : Finset (Fin (ns.length + 1))).card = ns.length + 1 := by simp
    omega
  have hmaps : ∀ i ∈ (Finset.univ : Finset (Fin (ns.length + 1))),
      f^[(i : Fin (ns.length + 1)).val] v0 ∈ ns.toFinset := by
    intro i _
    exact List.mem_toFinset.mpr (hiter i.val)
  obtain ⟨i, _, j, _, hij, heq⟩ :=
    Finset.exists_ne_map_eq_of_card_lt_of_maps_to hcard hmaps
  rcases Nat.lt_trichotomy i.val j.val with hlt | heqv | hgt
  · exact key _ _ hlt heq
  · exact absurd (Fin.ext heqv) hij
  · exact key _ _ hgt heq.symm

theorem kahnAux_none_cycle (fuel : Nat) :
    ∀ ns es, ns.length ≤ fuel →
      (∀ e ∈ es, e.1 ∈ ns ∧ e.2 ∈ ns) →
      kahnAux fuel ns es = none → HasCycleSpec es := by
  induction fuel with
  | zero =>
    intro ns es hlen hinv h
    have hns : ns = [] := List.length_eq_zero.mp (Nat.le_zero.mp hlen)
    subst hns
    simp [kahnAux] at h
  | succ fuel ih =>
    intro ns es hlen hinv h
    simp only [kahnAux] at h
    cases hf : ns.find? (fun v => !(es.any (fun e => e.2 == v))) with
    | some w =>
      simp only [hf] at h
      cases hk : kahnAux fuel (ns.erase w) (es.filter fun e => !(e.1 == w)) with
      | some l2 =>
        rw [hk] at h
        simp at h
      | none =>
        have hw : w ∈ ns := List.mem_of_find?_eq_some hf
        have hno := no_incoming_of_found es ns w hf
        have hlen2 : (ns.erase w).length ≤ fuel := by
          have := List.length_erase_add_one hw
          omega
        rcases ih _ _ hlen2 (filter_inv es ns w hinv hno) hk with ⟨v, hv⟩
        exact ⟨v, edgePath_mono _ _ (fun e he => (List.mem_filter.mp he).1) _ _ hv⟩
    | none =>
      simp only [hf] at h
      by_cases hns : ns.isEmpty = true
      · rw [if_pos hns] at h
        cases h
      · rw [if_neg hns] at h
        have hne : ns ≠ [] := fun hh => hns (by rw [hh]; rfl)
        apply cycle_of_all_have_pred ns es hne
        intro v hv
        have hfind := List.find?_eq_none.mp hf v hv
        have hany : es.any (fun e => e.2 == v) = true := by
          cases hb : es.any (fun e => e.2 == v)
          · exfalso
            apply hfind
            rw [hb]
            rfl
          · rfl
        rcases List.any_eq_true.mp hany with ⟨e, he, hbe⟩
        refine ⟨e.1, (hinv e he).1, ?_⟩
        have he2 : e.2 = v := eq_of_beq hbe
        rw [← he2, Prod.mk.eta]
        exact he

theorem has_cycle_iff (ms : List ModuleRecord) :
    has_cycle (build_graph ms) = true ↔ HasCycleSpec (build_graph ms).edges := by
  unfold has_cycle topoSort
  cases hk : kahnAux (build_graph ms).nodes.length (build_graph ms).nodes
      (build_graph ms).edges with
  | some l =>
    constructor
    · intro hcontra
      simp at hcontra
    · intro hc
      exact absurd hc (kahnAux_no_cycle _ _ _ _ hk (build_graph_inv ms))
  | none =>
    constructor
    · intro _
      exact kahnAux_none_cycle _ _ _ le_rfl (build_graph_inv ms) hk
    · intro _
      rfl

theorem not_cycle_of_has_cycle_false (ms : List ModuleRecord)
    (h : has_cycle (build_graph ms) = false) : ¬ HasCycleSpec (build_graph ms).edges := by
  intro hc
  rw [(has_cycle_iff ms).mpr hc] at h
  cases h

theorem get_build_order_ok (ms : List ModuleRecord)
    (h : ¬ HasCycleSpec (build_graph ms).edges) :
    ∃ l, topoSort (build_graph ms) = some l ∧ get_build_order ms = Except.ok l := by
  have hcyc : has_cycle (build_graph ms) = false := by
    cases hb : has_cycle (build_graph ms)
    · rfl
    · exact absurd ((has_cycle_iff ms).mp hb) h
  cases hk : topoSort (build_graph ms) with
  | none =>
    exfalso
    unfold has_cycle at hcyc
    rw [hk] at hcyc
    cases hcyc
  | some l =>
    refine ⟨l, rfl, ?_⟩
    simp only [get_build_order]
    rw [hcyc]
    simp only [Bool.false_eq_true, if_false]
    rw [hk]
    rfl

end Vibecraft

/-! ## Helper lemmas: module registry -/

namespace Vibecraft

theorem has_module_iff (st : RegistryData) (n : String) :
    has_module st n = true ↔ n ∈ st.modules.map ModuleRecord.name := by
  unfold has_module
  rw [List.find?_isSome]
  constructor
  · rintro ⟨r, hr, hb⟩
    exact (eq_of_beq hb) ▸ List.mem_map_of_mem _ hr
  · intro hn
    rcases List.mem_map.mp hn with ⟨r, hr, rfl⟩
    exact ⟨r, hr, beq_self_eq_true _⟩

theorem updateFirst_none (name : String) (u : ModuleUpdate) :
    ∀ ms : List ModuleRecord, updateFirst name u ms = none ↔ ∀ r ∈ ms, r.name ≠ name := by
  intro ms
  induction ms with
  | nil => simp [updateFirst]
  | cons r rest ih =>
    unfold updateFirst
    by_cases h : r.name = name
    · rw [if_pos h]
      constructor
      · intro hc
        cases hc
      · intro hall
        exact absurd h (hall r (List.mem_cons_self _ _))
    · rw [if_neg h]
      constructor
      · intro hm
        have hnone : updateFirst name u rest = none := by
          cases hu : updateFirst name u rest
          · rfl
          · rw [hu] at hm
            cases hm
        intro r2 hr2
        rcases List.mem_cons.mp hr2 with rfl | hr2
        · exact h
        · exact (ih.mp hnone) r2 hr2
      · intro hall
        rw [ih.mpr (fun r2 h2 => hall r2 (List.mem_cons_of_mem _ h2))]
        rfl

theorem updateFirst_some (name : String) (u : ModuleUpdate) :
    ∀ ms ms2 : List ModuleRecord, updateFirst name u ms = some ms2 →
      ∃ pre r post, ms = pre ++ r :: post ∧ ms2 = pre ++ applyUpdate r u :: post ∧
        r.name = name ∧ ∀ x ∈ pre, x.name ≠ name := by
  intro ms
  induction ms with
  | nil =>
    intro ms2 h
    cases h
  | cons r rest ih =>
    intro ms2 h
    unfold updateFirst at h
    by_cases hr : r.name = name
    · rw [if_pos hr] at h
      injection h with h
      refine ⟨[], r, rest, rfl, ?_, hr, ?_⟩
      · rw [← h]
        rfl
      · intro x hx
        cases hx
    · rw [if_neg hr] at h
      cases hu : updateFirst name u rest with
      | none =>
        rw [hu] at h
        cases h
      | some ms3 =>
        rw [hu] at h
        simp only [Option.map_some'] at h
        injection h with h
        rcases ih ms3 hu with ⟨pre, r1, post, h1, h2, h3, h4⟩
        refine ⟨r :: pre, r1, post, by rw [h1]; rfl, ?_, h3, ?_⟩
        · rw [← h, h2]
          rfl
        · intro x hx
          rcases List.mem_cons.mp hx with rfl | hx
          · exact hr
          · exact h4 x hx

theorem replaceFirst_none (name : String) (r1 : ModuleRecord) :
    ∀ ms : List ModuleRecord, replaceFirst name r1 ms = none ↔ ∀ r ∈ ms, r.name ≠ name := by
  intro ms
  induction ms with
  | nil => simp [replaceFirst]
  | cons r rest ih =>
    unfold replaceFirst
    by_cases h : r.name = name
    · rw [if_pos h]
      constructor
      · intro hc
        cases hc
      · intro hall
        exact absurd h (hall r (List.mem_cons_self _ _))
    · rw [if_neg h]
      constructor
      · intro hm
        have hnone : replaceFirst name r1 rest = none := by
          cases hu : replaceFirst name r1 rest
          · rfl
          · rw [hu] at hm
            cases hm
        intro r2 hr2
        rcases List.mem_cons.mp hr2 with rfl | hr2
        · exact h
        · exact (ih.mp hnone) r2 hr2
      · intro hall
        rw [ih.mpr (fun r2 h2 => hall r2 (List.mem_cons_of_mem _ h2))]
        rfl

theorem applyUpdate_created_at (r : ModuleRecord) (u : ModuleUpdate)
    (h : u.created_at = none) : (applyUpdate r u).created_at = r.created_at := by
  unfold applyUpdate
  rw [h]
  rfl

/-! ## Helper lemmas: dependency validation -/

theorem findMissing_none (names : List String) :
    ∀ ms : List ModuleRecord, findMissing names ms = none →
      ∀ m ∈ ms, ∀ d ∈ m.dependencies, d ∈ names := by
  intro ms
  induction ms with
  | nil =>
    intro _ m hm
    cases hm
  | cons m0 rest ih =>
    intro h m hm d hd
    unfold findMissing at h
    cases hf : m0.dependencies.find? (fun d => !(names.contains d)) with
    | some d0 =>
      rw [hf] at h
      cases h
    | none =>
      rw [hf] at h
      rcases List.mem_cons.mp hm with rfl | hm2
      · have hne := List.find?_eq_none.mp hf d hd
        cases hb : names.contains d
        · exfalso
          apply hne
          rw [hb]
          rfl
        · exact List.elem_iff.mp hb
      · exact ih h m hm2 d hd

theorem findMissing_some (names : List String) :
    ∀ (ms : List ModuleRecord) (mn d : String), findMissing names ms = some (mn, d) →
      ∃ m ∈ ms, m.name = mn ∧ d ∈ m.dependencies ∧ d ∉ names := by
  intro ms
  induction ms with
  | nil =>
    intro mn d h
    cases h
  | cons m0 rest ih =>
    intro mn d h
    unfold findMissing at h
    cases hf : m0.dependencies.find? (fun d => !(names.contains d)) with
    | some d0 =>
      rw [hf] at h
      injection h with h
      injection h with h1 h2
      subst h1
      subst h2
      refine ⟨m0, List.mem_cons_self _ _, rfl, List.mem_of_find?_eq_some hf, ?_⟩
      intro hmem
      have hb := List.find?_some hf
      have hc : names.contains d0 = true := List.elem_iff.mpr hmem
      rw [hc] at hb
      simp at hb
    | none =>
      rw [hf] at h
      rcases ih mn d h with ⟨m, hm, h1, h2, h3⟩
      exact ⟨m, List.mem_cons_of_mem _ hm, h1, h2, h3⟩

theorem validate_eq_missing (ms : List ModuleRecord) (mn d : String)
    (hf : findMissing (ms.map ModuleRecord.name) ms = some (mn, d)) :
    validate_dependencies ms = Except.error (VibecraftError.missingDependencyError
      ("Module '" ++ mn ++ "' depends on non-existent module '" ++ d ++ "'")) := by
  unfold validate_dependencies
  rw [hf]

theorem validate_eq_cycle_branch (ms : List ModuleRecord)
    (hf : findMissing (ms.map ModuleRecord.name) ms = none) :
    validate_dependencies ms =
      (if has_cycle (build_graph ms) then
        Except.error (VibecraftError.cyclicDependencyError "Circular dependencies detected")
      else Except.ok ()) := by
  unfold validate_dependencies
  rw [hf]

end Vibecraft

/-! ## Helper lemmas: phase-state machine -/

namespace Vibecraft

theorem bool_eq_of_iff {a b : Bool} (h : a = true ↔ b = true) : a = b := by
  cases a <;> cases b <;> simp_all

theorem phaseScan_cons (e : String) (rest logical impl : List String) :
    phaseScan (e :: rest) logical impl =
      if pyStartsWith e "implement_phase_" then
        phaseScan rest logical (insertIfAbsent impl (pySplitLast e))
      else if e == "implement" then
        phaseScan rest (insertIfAbsent logical "implement") impl
      else
        match SKILL_TO_PHASE.lookup e with
        | some p => phaseScan rest (insertIfAbsent logical p) impl
        | none => phaseScan rest (insertIfAbsent logical e) impl := rfl

theorem phaseScan_cons_phase (e : String) (rest logical impl : List String)
    (hsp : pyStartsWith e "implement_phase_" = true) :
    phaseScan (e :: rest) logical impl =
      phaseScan rest logical (insertIfAbsent impl (pySplitLast e)) := by
  rw [phaseScan_cons, if_pos hsp]

theorem phaseScan_cons_nonphase (e : String) (rest logical impl : List String)
    (hsp : pyStartsWith e "implement_phase_" = false) :
    phaseScan (e :: rest) logical impl =
      phaseScan rest (insertIfAbsent logical (specSkillToPhase e)) impl := by
  rw [phaseScan_cons, if_neg (by rw [hsp]; exact Bool.false_ne_true)]
  by_cases him : e = "implement"
  · subst him
    rw [if_pos (by decide)]
    have hsk : specSkillToPhase "implement" = "implement" := by decide
    rw [hsk]
  · rw [if_neg (by simpa using him)]
    cases hlk : SKILL_TO_PHASE.lookup e with
    | some ph => simp only [hlk, specSkillToPhase]
    | none => simp only [hlk, specSkillToPhase]

theorem phaseScan_fst_mem (entries : List String) :
    ∀ logical impl x, x ∈ (phaseScan entries logical impl).1 ↔
      x ∈ logical ∨ ∃ e ∈ entries,
        pyStartsWith e "implement_phase_" = false ∧ specSkillToPhase e = x := by
  induction entries with
  | nil =>
    intro logical impl x
    simp [phaseScan]
  | cons e rest ih =>
    intro logical impl x
    cases hsp : pyStartsWith e "implement_phase_" with
    | true =>
      rw [phaseScan_cons_phase e rest logical impl hsp, ih]
      constructor
      · rintro (hx | ⟨e1, he1, h1, h2⟩)
        · exact Or.inl hx
        · exact Or.inr ⟨e1, List.mem_cons_of_mem _ he1, h1, h2⟩
      · rintro (hx | ⟨e1, he1, h1, h2⟩)
        · exact Or.inl hx
        · rcases List.mem_cons.mp he1 with rfl | he2
          · rw [hsp] at h1
            cases h1
          · exact Or.inr ⟨e1, he2, h1, h2⟩
    | false =>
      rw [phaseScan_cons_nonphase e rest logical impl hsp, ih]
      constructor
      · rintro (hx | ⟨e1, he1, h1, h2⟩)
        · rcases (mem_insertIfAbsent logical (specSkillToPhase e) x).mp hx with hl | rfl
          · exact Or.inl hl
          · exact Or.inr ⟨e, List.mem_cons_self _ _, hsp, rfl⟩
        · exact Or.inr ⟨e1, List.mem_cons_of_mem _ he1, h1, h2⟩
      · rintro (hx | ⟨e1, he1, h1, h2⟩)
        · exact Or.inl ((mem_insertIfAbsent _ _ _).mpr (Or.inl hx))
        · rcases List.mem_cons.mp he1 with rfl | he2
          · exact Or.inl ((mem_insertIfAbsent _ _ _).mpr (Or.inr h2.symm))
          · exact Or.inr ⟨e1, he2, h1, h2⟩

theorem phaseScan_snd_mem (entries : List String) :
    ∀ logical impl x, x ∈ (phaseScan entries logical impl).2 ↔
      x ∈ impl ∨ ∃ e ∈ entries,
        pyStartsWith e "implement_phase_" = true ∧ pySplitLast e = x := by
  induction entries with
  | nil =>
    intro logical impl x
    simp [phaseScan]
  | cons e rest ih =>
    intro logical impl x
    cases hsp : pyStartsWith e "implement_phase_" with
    | false =>
      rw [phaseScan_cons_nonphase e rest logical impl hsp, ih]
      constructor
      · rintro (hx | ⟨e1, he1, h1, h2⟩)
        · exact Or.inl hx
        · exact Or.inr ⟨e1, List.mem_cons_of_mem _ he1, h1, h2⟩
      · rintro (hx | ⟨e1, he1, h1, h2⟩)
        · exact Or.inl hx
        · rcases List.mem_cons.mp he1 with rfl | he2
          · rw [hsp] at h1
            cases h1
          · exact Or.inr ⟨e1, he2, h1, h2⟩
    | true =>
      rw [phaseScan_cons_phase e rest logical impl hsp, ih]
      constructor
      · rintro (hx | ⟨e1, he1, h1, h2⟩)
        · rcases (mem_insertIfAbsent impl (pySplitLast e) x).mp hx with hl | rfl
          · exact Or.inl hl
          · exact Or.inr ⟨e, List.mem_cons_self _ _, hsp, rfl⟩
        · exact Or.inr ⟨e1, List.mem_cons_of_mem _ he1, h1, h2⟩
      · rintro (hx | ⟨e1, he1, h1, h2⟩)
        · exact Or.inl ((mem_insertIfAbsent _ _ _).mpr (Or.inl hx))
        · rcases List.mem_cons.mp he1 with rfl | he2
          · exact Or.inl ((mem_insertIfAbsent _ _ _).mpr (Or.inr h2.symm))
          · exact Or.inr ⟨e1, he2, h1, h2⟩

theorem phaseScan_snd_nodup (entries : List String) :
    ∀ logical impl, impl.Nodup → (phaseScan entries logical impl).2.Nodup := by
  induction entries with
  | nil =>
    intro logical impl h
    exact h
  | cons e rest ih =>
    intro logical impl h
    cases hsp : pyStartsWith e "implement_phase_" with
    | true =>
      rw [phaseScan_cons_phase e rest logical impl hsp]
      exact ih _ _ (nodup_insertIfAbsent _ _ h)
    | false =>
      rw [phaseScan_cons_nonphase e rest logical impl hsp]
      exact ih _ _ h

theorem phaseScan_snd_len (m : Manifest) :
    (phaseScan m.phases_completed [] []).2.length = specImplCount m := by
  unfold specImplCount
  apply List.Perm.length_eq
  apply (List.perm_ext_iff_of_nodup (phaseScan_snd_nodup _ _ _ List.nodup_nil)
    (List.nodup_dedup _)).mpr
  intro x
  rw [List.mem_dedup, phaseScan_snd_mem]
  constructor
  · rintro (hx | ⟨e, he, h1, h2⟩)
    · cases hx
    · exact List.mem_map.mpr ⟨e, List.mem_filter.mpr ⟨he, h1⟩, h2⟩
  · intro hx
    rcases List.mem_map.mp hx with ⟨e, hef, h2⟩
    rcases List.mem_filter.mp hef with ⟨he, h1⟩
    exact Or.inr ⟨e, he, h1, h2⟩

theorem specCompletedB_iff (m : Manifest) (p : String) :
    specCompletedB m p = true ↔
      ((∃ e ∈ m.phases_completed,
          pyStartsWith e "implement_phase_" = false ∧ specSkillToPhase e = p)
       ∨ (p = "implement" ∧ 0 < m.total_implement_phases ∧
            m.total_implement_phases ≤ specImplCount m)) := by
  unfold specCompletedB
  rw [Bool.or_eq_true, List.any_eq_true]
  constructor
  · rintro (⟨e, he, hb⟩ | hb)
    · rw [Bool.and_eq_true] at hb
      refine Or.inl ⟨e, he, ?_, eq_of_beq hb.2⟩
      have hnb := hb.1
      cases hsp : pyStartsWith e "implement_phase_"
      · rfl
      · rw [hsp] at hnb
        cases hnb
    · rw [Bool.and_eq_true, Bool.and_eq_true] at hb
      obtain ⟨⟨h1, h2⟩, h3⟩ := hb
      exact Or.inr ⟨eq_of_beq h1, of_decide_eq_true h2, of_decide_eq_true h3⟩
  · rintro (⟨e, he, h1, h2⟩ | ⟨h1, h2, h3⟩)
    · refine Or.inl ⟨e, he, ?_⟩
      rw [Bool.and_eq_true]
      refine ⟨by rw [h1]; rfl, by rw [h2]; exact beq_self_eq_true _⟩
    · refine Or.inr ?_
      rw [Bool.and_eq_true, Bool.and_eq_true]
      exact ⟨⟨by rw [h1]; exact beq_self_eq_true _, decide_eq_true h2⟩, decide_eq_true h3⟩

theorem next_phase_def2 (m : Manifest) :
    next_phase m = (m.phases.find? (fun p =>
      !((if 0 < m.total_implement_phases ∧
            m.total_implement_phases ≤ (phaseScan m.phases_completed [] []).2.length then
          insertIfAbsent (phaseScan m.phases_completed [] []).1 "implement"
        else (phaseScan m.phases_completed [] []).1).contains p))).getD "done" := rfl

theorem logical2_mem_iff (m : Manifest) (p : String) :
    (p ∈ (if 0 < m.total_implement_phases ∧
            m.total_implement_phases ≤ (phaseScan m.phases_completed [] []).2.length then
          insertIfAbsent (phaseScan m.phases_completed [] []).1 "implement"
        else (phaseScan m.phases_completed [] []).1)) ↔
      ((∃ e ∈ m.phases_completed,
          pyStartsWith e "implement_phase_" = false ∧ specSkillToPhase e = p)
       ∨ (p = "implement" ∧ 0 < m.total_implement_phases ∧
            m.total_implement_phases ≤ specImplCount m)) := by
  simp only [phaseScan_snd_len]
  by_cases hC : 0 < m.total_implement_phases ∧ m.total_implement_phases ≤ specImplCount m
  · rw [if_pos hC, mem_insertIfAbsent, phaseScan_fst_mem]
    constructor
    · rintro ((hx | hex) | rfl)
      · cases hx
      · exact Or.inl hex
      · exact Or.inr ⟨rfl, hC⟩
    · rintro (hex | ⟨rfl, _⟩)
      · exact Or.inl (Or.inr hex)
      · exact Or.inr rfl
  · rw [if_neg hC, phaseScan_fst_mem]
    constructor
    · rintro (hx | hex)
      · cases hx
      · exact Or.inl hex
    · rintro (hex | ⟨rfl, h2, h3⟩)
      · exact Or.inr hex
      · exact absurd ⟨h2, h3⟩ hC

theorem logical2_contains_eq (m : Manifest) (p : String) :
    ((if 0 < m.total_implement_phases ∧
          m.total_implement_phases ≤ (phaseScan m.phases_completed [] []).2.length then
        insertIfAbsent (phaseScan m.phases_completed [] []).1 "implement"
      else (phaseScan m.phases_completed [] []).1).contains p) = specCompletedB m p := by
  apply bool_eq_of_iff
  rw [specCompletedB_iff]
  constructor
  · intro hc
    exact (logical2_mem_iff m p).mp (List.elem_iff.mp hc)
  · intro hp
    exact List.elem_iff.mpr ((logical2_mem_iff m p).mpr hp)

theorem next_phase_eq_spec (m : Manifest) :
    next_phase m = (m.phases.find? (fun p => !(specCompletedB m p))).getD "done" := by
  rw [next_phase_def2]
  have hfg : (fun p => !((if 0 < m.total_implement_phases ∧
          m.total_implement_phases ≤ (phaseScan m.phases_completed [] []).2.length then
        insertIfAbsent (phaseScan m.phases_completed [] []).1 "implement"
      else (phaseScan m.phases_completed [] []).1).contains p)) =
      (fun p => !(specCompletedB m p)) := by
    funext p
    rw [logical2_contains_eq]
  rw [hfg]

theorem nodup_applyPhaseOp (m : Manifest) (op : PhaseOp) (h : m.phases_completed.Nodup) :
    (applyPhaseOp m op).phases_completed.Nodup := by
  cases op with
  | skillOp sn ph now => exact nodup_insertIfAbsent _ _ h
  | phaseOp ph now => exact nodup_insertIfAbsent _ _ h

theorem nodup_foldl_applyPhaseOp (ops : List PhaseOp) :
    ∀ m : Manifest, m.phases_completed.Nodup →
      (ops.foldl applyPhaseOp m).phases_completed.Nodup := by
  induction ops with
  | nil =>
    intro m h
    exact h
  | cons op rest ih =>
    intro m h
    exact ih _ (nodup_applyPhaseOp m op h)

end Vibecraft

/-! ## Concrete example inputs (used by the witnesses below) -/

namespace Vibecraft

/-- The spec's example scenario: `database` (no deps), `auth` (deps
`[database]`), `api` (deps `[auth, database]`). -/
def exampleModules : List ModuleRecord :=
  [{ name := "database" },
   { name := "auth", dependencies := ["database"] },
   { name := "api", dependencies := ["auth", "database"] }]

/-- A 1-node self-dependency. -/
def cyc1Modules : List ModuleRecord := [{ name := "a", dependencies := ["a"] }]

/-- A 2-node mutual dependency. -/
def cyc2Modules : List ModuleRecord :=
  [{ name := "a", dependencies := ["b"] }, { name := "b", dependencies := ["a"] }]

/-- A 3-node cycle. -/
def cyc3Modules : List ModuleRecord :=
  [{ name := "a", dependencies := ["c"] }, { name := "b", dependencies := ["a"] },
   { name := "c", dependencies := ["b"] }]

/-- One module declaring a dependency with no module record. -/
def missingModules : List ModuleRecord := [{ name := "a", dependencies := ["ghost"] }]

/-- The spec's phase example: three skills done plus one implement sub-phase,
no `total_implement_phases`. -/
def exampleManifest : Manifest :=
  { phases := ["research", "design", "plan", "implement", "review"],
    phases_completed := ["research_skill", "design_skill", "plan_skill", "implement_phase_1"] }

/-- A registry holding one module record named `auth`. -/
def exampleRegistry : RegistryData :=
  { modules := [{ name := "auth", path := "modules/auth",
                  created_at := some "2024-01-01T00:00:00" }] }

/-- A module whose name collides with the existing `auth` record. -/
def exampleConfigModule : ConfigModule := { name := "auth", description := "other" }

/-- An update that supplies a new `created_at` value. -/
def c7Update : ModuleUpdate := { created_at := some (some "2030-01-01T00:00:00") }

/-- An update that only changes `status`. -/
def c7Update2 : ModuleUpdate := { status := some "completed" }

/-- The registry state after applying `c7Update` to `exampleRegistry`: the
stored `created_at` has been overwritten. -/
def c7Overwritten : RegistryData :=
  { modules := [{ name := "auth", path := "modules/auth",
                  created_at := some "2030-01-01T00:00:00" }] }

/-- The registry state after applying `c7Update2` to `exampleRegistry`. -/
def c7After : RegistryData :=
  { modules := [{ name := "auth", path := "modules/auth", status := "completed",
                  created_at := some "2024-01-01T00:00:00" }] }

end Vibecraft

/-! ## Claims -/

namespace Vibecraft

/-- C1: for every set of modules whose dependency graph (nodes: all module
names and dependency names; edge dependency → dependent) is acyclic,
`get_build_order()` returns a permutation of all node names in which every
edge source appears strictly before its target (in particular every
declared dependency before its dependent), and modules with no dependencies
and no dependents appear exactly once (the output has no duplicates and
covers every node). -/
theorem claim_C1 (modules : List ModuleRecord)
    (hacyc : ¬ HasCycleSpec (build_graph modules).edges) :
    ∃ l, get_build_order modules = Except.ok l
      ∧ l.Perm (build_graph modules).nodes
      ∧ l.Nodup
      ∧ (∀ n, n ∈ l ↔ ((∃ m ∈ modules, m.name = n) ∨ ∃ m ∈ modules, n ∈ m.dependencies))
      ∧ (∀ u v, (u, v) ∈ (build_graph modules).edges → l.indexOf u < l.indexOf v)
      ∧ (∀ m ∈ modules, ∀ d ∈ m.dependencies, l.indexOf d < l.indexOf m.name) := by
  rcases get_build_order_ok modules hacyc with ⟨l, htopo, hord⟩
  unfold topoSort at htopo
  have hperm : l.Perm (build_graph modules).nodes := kahnAux_perm _ _ _ _ htopo
  have hsorted := kahnAux_sorted _ _ _ _ htopo (build_graph_inv modules)
  refine ⟨l, hord, hperm, hperm.symm.nodup (build_graph_nodup modules), ?_, hsorted, ?_⟩
  · intro n
    rw [hperm.mem_iff]
    exact build_graph_nodes_mem modules n
  · intro m hm d hd
    exact hsorted d m.name ((build_graph_edges_mem modules (d, m.name)).mpr ⟨m, hm, d, hd, rfl⟩)

/-- Witness for C1 at the spec's `database`/`auth`/`api` example. -/
theorem claim_C1_witness :
    (¬ HasCycleSpec (build_graph exampleModules).edges)
    ∧ (∃ l, get_build_order exampleModules = Except.ok l
      ∧ l.Perm (build_graph exampleModules).nodes
      ∧ l.Nodup
      ∧ (∀ n, n ∈ l ↔
          ((∃ m ∈ exampleModules, m.name = n) ∨ ∃ m ∈ exampleModules, n ∈ m.dependencies))
      ∧ (∀ u v, (u, v) ∈ (build_graph exampleModules).edges → l.indexOf u < l.indexOf v)
      ∧ (∀ m ∈ exampleModules, ∀ d ∈ m.dependencies, l.indexOf d < l.indexOf m.name)) := by
  have hacyc := not_cycle_of_has_cycle_false exampleModules (by decide)
  exact ⟨hacyc, claim_C1 exampleModules hacyc⟩

/-- C2: `has_cycle()` returns true iff the dependency graph contains a
directed cycle (a self-dependency edge being a 1-cycle); it is a total
Boolean probe (never raises, by construction of the embedding); and on any
cyclic graph `get_build_order()` returns the cyclic-dependency error and
no order. -/
theorem claim_C2 (modules : List ModuleRecord) :
    (has_cycle (build_graph modules) = true ↔ HasCycleSpec (build_graph modules).edges)
    ∧ (∀ m ∈ modules, m.name ∈ m.dependencies → has_cycle (build_graph modules) = true)
    ∧ (HasCycleSpec (build_graph modules).edges →
        get_build_order modules = Except.error (VibecraftError.cyclicDependencyError
          "Cannot determine build order: circular dependencies detected")) := by
  refine ⟨has_cycle_iff modules, ?_, ?_⟩
  · intro m hm hself
    apply (has_cycle_iff modules).mpr
    exact ⟨m.name,
      EdgePath.single ((build_graph_edges_mem modules _).mpr ⟨m, hm, m.name, hself, rfl⟩)⟩
  · intro hc
    have hcyc : has_cycle (build_graph modules) = true := (has_cycle_iff modules).mpr hc
    simp only [get_build_order]
    rw [hcyc]
    rfl

/-- Witness for C2 on a 1-node self-dependency, a 2-node mutual dependency
and a 3-node cycle. -/
theorem claim_C2_witness :
    has_cycle (build_graph cyc1Modules) = true
    ∧ get_build_order cyc1Modules = Except.error (VibecraftError.cyclicDependencyError
        "Cannot determine build order: circular dependencies detected")
    ∧ has_cycle (build_graph cyc2Modules) = true
    ∧ has_cycle (build_graph cyc3Modules) = true := by
  refine ⟨?_, ?_, by decide, by decide⟩
  · exact (claim_C2 cyc1Modules).2.1 { name := "a", dependencies := ["a"] } (by decide) (by decide)
  · exact (claim_C2 cyc1Modules).2.2 ((claim_C2 cyc1Modules).1.mp (by decide))

/-- C9: `get_build_order()` is deterministic — on equal inputs (the same
module list, hence the same graph) it returns identical lists.  In this
embedding the whole computation is a pure function of the module list, so
determinism is definitional. -/
theorem claim_C9 (ms1 ms2 : List ModuleRecord) (h : ms1 = ms2) :
    get_build_order ms1 = get_build_order ms2 := by
  rw [h]

/-- Witness for C9 on the example modules. -/
theorem claim_C9_witness :
    exampleModules = exampleModules
    ∧ get_build_order exampleModules = get_build_order exampleModules :=
  ⟨rfl, claim_C9 exampleModules exampleModules rfl⟩

end Vibecraft

namespace Vibecraft

/-- The `_SKILL_TO_PHASE` table never maps a skill marker to `implement`. -/
theorem lookup_ne_implement (e : String)
    (h : SKILL_TO_PHASE.lookup e = some "implement") : False := by
  simp only [SKILL_TO_PHASE, List.lookup] at h
  split at h
  · exact absurd h (by decide)
  · split at h
    · exact absurd h (by decide)
    · split at h
      · exact absurd h (by decide)
      · split at h
        · exact absurd h (by decide)
        · exact absurd h (by decide)

/-- C3: `_next_phase` returns the first entry of the manifest's `phases`
list not in the logical completed set (the sentinel `"done"` when all are
in it), where the set is: non-sub-phase markers translated through the
skill table (an explicit `implement` entry completing `implement`, other
unknown entries counting verbatim), plus `implement` exactly when
`total_implement_phases` is positive and the number of distinct
`implement_phase_<N>` suffixes recorded reaches or exceeds it.  When
`total_implement_phases` is zero or absent, sub-phase markers alone never
complete `implement`; in particular the spec's example manifest yields
`implement`, not `review`. -/
theorem claim_C3 (m : Manifest) :
    next_phase m = (m.phases.find? (fun p => !(specCompletedB m p))).getD "done"
    ∧ (m.total_implement_phases = 0 →
        (specCompletedB m "implement" = true ↔ "implement" ∈ m.phases_completed))
    ∧ next_phase exampleManifest = "implement" := by
  refine ⟨next_phase_eq_spec m, ?_, by decide⟩
  intro h0
  rw [specCompletedB_iff]
  constructor
  · rintro (⟨e, he, h1, h2⟩ | ⟨_, h2, _⟩)
    · cases hlk : SKILL_TO_PHASE.lookup e with
      | none =>
        simp only [specSkillToPhase, hlk] at h2
        rw [← h2]
        exact he
      | some ph =>
        simp only [specSkillToPhase, hlk] at h2
        rw [h2] at hlk
        exact absurd (lookup_ne_implement e hlk) not_false
    · rw [h0] at h2
      exact absurd h2 (lt_irrefl 0)
  · intro hmem
    exact Or.inl ⟨"implement", hmem, by decide, by decide⟩

/-- Witness for C3 at the spec's example manifest. -/
theorem claim_C3_witness :
    (next_phase exampleManifest =
      (exampleManifest.phases.find? (fun p => !(specCompletedB exampleManifest p))).getD "done")
    ∧ exampleManifest.total_implement_phases = 0
    ∧ (specCompletedB exampleManifest "implement" = true ↔
        "implement" ∈ exampleManifest.phases_completed)
    ∧ next_phase exampleManifest = "implement" := by
  have h := claim_C3 exampleManifest
  exact ⟨h.1, rfl, h.2.1 rfl, h.2.2⟩

/-- C10: starting from a duplicate-free `phases_completed`, any sequence of
`complete_skill` / `complete_phase` calls keeps it duplicate-free — both
append their completion marker only when it is not already present, so
every marker occurs at most once. -/
theorem claim_C10 (m : Manifest) (ops : List PhaseOp) (h : m.phases_completed.Nodup) :
    ((ops.foldl applyPhaseOp m).phases_completed.Nodup)
    ∧ ∀ x, (ops.foldl applyPhaseOp m).phases_completed.count x ≤ 1 := by
  have hn := nodup_foldl_applyPhaseOp ops m h
  exact ⟨hn, fun x => List.nodup_iff_count_le_one.mp hn x⟩

/-- Witness for C10: a skill completion and a repeated sub-phase completion
on the example manifest. -/
theorem claim_C10_witness :
    exampleManifest.phases_completed.Nodup
    ∧ (([PhaseOp.skillOp "review" none "T1", PhaseOp.phaseOp 1 "T2",
          PhaseOp.phaseOp 2 "T3", PhaseOp.phaseOp 2 "T4"].foldl
          applyPhaseOp exampleManifest).phases_completed.Nodup
       ∧ ∀ x, (([PhaseOp.skillOp "review" none "T1", PhaseOp.phaseOp 1 "T2",
          PhaseOp.phaseOp 2 "T3", PhaseOp.phaseOp 2 "T4"].foldl
          applyPhaseOp exampleManifest).phases_completed.count x ≤ 1)) := by
  have hn : exampleManifest.phases_completed.Nodup := by decide
  exact ⟨hn, claim_C10 exampleManifest _ hn⟩

end Vibecraft

namespace Vibecraft

/-- C4: `validate_dependencies()` raises the missing-dependency error iff
some module's `dependencies` list contains a name absent from the set of
all module names; the message contains both the owning module's name and
the missing name; and whenever a missing dependency exists the
missing-dependency error is raised (so it wins over any cycle error). -/
theorem claim_C4 (modules : List ModuleRecord) :
    ((∃ msg, validate_dependencies modules =
        Except.error (VibecraftError.missingDependencyError msg)) ↔
      ∃ m ∈ modules, ∃ d ∈ m.dependencies, d ∉ modules.map ModuleRecord.name)
    ∧ (∀ msg, validate_dependencies modules =
        Except.error (VibecraftError.missingDependencyError msg) →
        ∃ m ∈ modules, ∃ d ∈ m.dependencies, (d ∉ modules.map ModuleRecord.name)
          ∧ StrContains msg m.name ∧ StrContains msg d) := by
  constructor
  · constructor
    · rintro ⟨msg, hmsg⟩
      cases hf : findMissing (modules.map ModuleRecord.name) modules with
      | some p =>
        obtain ⟨mn, d⟩ := p
        rcases findMissing_some _ _ _ _ hf with ⟨m, hm, h1, h2, h3⟩
        exact ⟨m, hm, d, h2, h3⟩
      | none =>
        rw [validate_eq_cycle_branch modules hf] at hmsg
        by_cases hc : has_cycle (build_graph modules) = true
        · rw [if_pos hc] at hmsg
          simp at hmsg
        · rw [if_neg hc] at hmsg
          cases hmsg
    · rintro ⟨m, hm, d, hd, hnot⟩
      cases hf : findMissing (modules.map ModuleRecord.name) modules with
      | some p =>
        obtain ⟨mn, d1⟩ := p
        exact ⟨_, validate_eq_missing modules mn d1 hf⟩
      | none =>
        exact absurd (findMissing_none _ _ hf m hm d hd) hnot
  · intro msg hmsg
    cases hf : findMissing (modules.map ModuleRecord.name) modules with
    | none =>
      rw [validate_eq_cycle_branch modules hf] at hmsg
      by_cases hc : has_cycle (build_graph modules) = true
      · rw [if_pos hc] at hmsg
        simp at hmsg
      · rw [if_neg hc] at hmsg
        cases hmsg
    | some p =>
      obtain ⟨mn, d⟩ := p
      rcases findMissing_some _ _ _ _ hf with ⟨m, hm, h1, h2, h3⟩
      rw [validate_eq_missing modules mn d hf] at hmsg
      injection hmsg with hmsg
      injection hmsg with hmsg
      subst hmsg
      refine ⟨m, hm, d, h2, h3, ?_, ?_⟩
      · rw [h1]
        exact ⟨"Module '", "' depends on non-existent module '" ++ d ++ "'",
          by simp [String.append_assoc]⟩
      · exact ⟨"Module '" ++ mn ++ "' depends on non-existent module '", "'",
          by simp [String.append_assoc]⟩

/-- Witness for C4 on a module depending on the undeclared `ghost`. -/
theorem claim_C4_witness :
    (∃ m ∈ missingModules, ∃ d ∈ m.dependencies, d ∉ missingModules.map ModuleRecord.name)
    ∧ (∃ msg, validate_dependencies missingModules =
        Except.error (VibecraftError.missingDependencyError msg))
    ∧ (∃ m ∈ missingModules, ∃ d ∈ m.dependencies,
        (d ∉ missingModules.map ModuleRecord.name)
        ∧ StrContains "Module 'a' depends on non-existent module 'ghost'" m.name
        ∧ StrContains "Module 'a' depends on non-existent module 'ghost'" d) := by
  have h := claim_C4 missingModules
  have hmem : ∃ m ∈ missingModules, ∃ d ∈ m.dependencies,
      d ∉ missingModules.map ModuleRecord.name :=
    ⟨{ name := "a", dependencies := ["ghost"] }, by decide, "ghost", by decide, by decide⟩
  exact ⟨hmem, h.1.mpr hmem, h.2 "Module 'a' depends on non-existent module 'ghost'" (by decide)⟩

/-- C5: a module declaring a dependency on a name with no module record
does not make `get_build_order()` raise a missing-dependency error; on an
acyclic graph the order is returned and includes the undeclared name as a
bare node — referential integrity is enforced only by
`validate_dependencies()`. -/
theorem claim_C5 (modules : List ModuleRecord) (m : ModuleRecord) (hm : m ∈ modules)
    (d : String) (hd : d ∈ m.dependencies) (_hmiss : d ∉ modules.map ModuleRecord.name)
    (hacyc : ¬ HasCycleSpec (build_graph modules).edges) :
    ∃ l, get_build_order modules = Except.ok l ∧ d ∈ l
      ∧ ∀ msg, get_build_order modules ≠
          Except.error (VibecraftError.missingDependencyError msg) := by
  rcases get_build_order_ok modules hacyc with ⟨l, htopo, hord⟩
  unfold topoSort at htopo
  have hperm : l.Perm (build_graph modules).nodes := kahnAux_perm _ _ _ _ htopo
  refine ⟨l, hord, ?_, ?_⟩
  · exact hperm.mem_iff.mpr ((build_graph_nodes_mem modules d).mpr (Or.inr ⟨m, hm, hd⟩))
  · intro msg hcontra
    rw [hord] at hcontra
    cases hcontra

/-- Witness for C5 on the `ghost` dependency example. -/
theorem claim_C5_witness :
    (({ name := "a", dependencies := ["ghost"] } : ModuleRecord) ∈ missingModules)
    ∧ ("ghost" ∈ ({ name := "a", dependencies := ["ghost"] } : ModuleRecord).dependencies)
    ∧ ("ghost" ∉ missingModules.map ModuleRecord.name)
    ∧ (¬ HasCycleSpec (build_graph missingModules).edges)
    ∧ (∃ l, get_build_order missingModules = Except.ok l ∧ "ghost" ∈ l
        ∧ ∀ msg, get_build_order missingModules ≠
            Except.error (VibecraftError.missingDependencyError msg)) := by
  have hacyc := not_cycle_of_has_cycle_false missingModules (by decide)
  exact ⟨by decide, by decide, by decide, hacyc,
    claim_C5 missingModules { name := "a", dependencies := ["ghost"] } (by decide)
      "ghost" (by decide) (by decide) hacyc⟩

end Vibecraft

namespace Vibecraft

/-- C6: `add_module` is idempotent by name — when the name already exists
the call is a silent no-op: no error (the function is total), no overwrite
(the state is returned unchanged), and the number of records with that name
is unchanged (so a unique record stays unique). -/
theorem claim_C6 (st : RegistryData) (m : ConfigModule)
    (h : m.name ∈ st.modules.map ModuleRecord.name) :
    add_module st m = st
    ∧ (st.modules.filter (fun r => r.name == m.name)).length =
        ((add_module st m).modules.filter (fun r => r.name == m.name)).length := by
  have hmod : has_module st m.name = true := (has_module_iff st m.name).mpr h
  have heq : add_module st m = st := by
    unfold add_module
    rw [if_pos hmod]
  exact ⟨heq, by rw [heq]⟩

/-- Witness for C6: re-adding `auth` to a registry that has it. -/
theorem claim_C6_witness :
    ("auth" ∈ exampleRegistry.modules.map ModuleRecord.name)
    ∧ add_module exampleRegistry exampleConfigModule = exampleRegistry
    ∧ (exampleRegistry.modules.filter (fun r => r.name == exampleConfigModule.name)).length =
      ((add_module exampleRegistry exampleConfigModule).modules.filter
        (fun r => r.name == exampleConfigModule.name)).length := by
  have h := claim_C6 exampleRegistry exampleConfigModule (by decide)
  exact ⟨by decide, h.1, h.2⟩

/-- Counterexample to C7 as stated: a legacy-style `update_module` call
that passes `created_at` among the kwargs succeeds on the existing module
and changes the stored `created_at` — the field is not guarded by the
registry. -/
theorem claim_C7_counterexample :
    update_module exampleRegistry "auth" c7Update = Except.ok c7Overwritten
    ∧ exampleRegistry.modules.map ModuleRecord.created_at ≠
        c7Overwritten.modules.map ModuleRecord.created_at := by
  exact ⟨by decide, by decide⟩

/-- C7 (amended): for every legacy-style `update_module` call that succeeds
on an existing module and does not specify `created_at`, the updated
record's `created_at` is unchanged; only the first record with the name is
touched, and every field not specified in the update retains its prior
value. -/
theorem claim_C7 (st : RegistryData) (nm : String) (u : ModuleUpdate) (st1 : RegistryData)
    (hok : update_module st nm u = Except.ok st1) (hca : u.created_at = none) :
    ∃ pre r post r1, st.modules = pre ++ r :: post ∧ st1.modules = pre ++ r1 :: post
      ∧ r.name = nm ∧ (∀ x ∈ pre, x.name ≠ nm)
      ∧ r1.created_at = r.created_at
      ∧ (u.name = none → r1.name = r.name)
      ∧ (u.path = none → r1.path = r.path)
      ∧ (u.status = none → r1.status = r.status)
      ∧ (u.description = none → r1.description = r.description)
      ∧ (u.dependencies = none → r1.dependencies = r.dependencies)
      ∧ (u.exports = none → r1.exports = r.exports)
      ∧ (u.phases_completed = none → r1.phases_completed = r.phases_completed)
      ∧ (u.metadata = none → r1.metadata = r.metadata) := by
  unfold update_module at hok
  cases hu : updateFirst nm u st.modules with
  | none =>
    rw [hu] at hok
    cases hok
  | some ms =>
    rw [hu] at hok
    injection hok with hok
    rcases updateFirst_some nm u st.modules ms hu with ⟨pre, r, post, h1, h2, h3, h4⟩
    refine ⟨pre, r, post, applyUpdate r u, h1, ?_, h3, h4,
      applyUpdate_created_at r u hca,
      fun hh => by simp [applyUpdate, hh],
      fun hh => by simp [applyUpdate, hh],
      fun hh => by simp [applyUpdate, hh],
      fun hh => by simp [applyUpdate, hh],
      fun hh => by simp [applyUpdate, hh],
      fun hh => by simp [applyUpdate, hh],
      fun hh => by simp [applyUpdate, hh],
      fun hh => by simp [applyUpdate, hh]⟩
    rw [← hok]
    exact h2

/-- Witness for C7 (amended): a status-only update of `auth`. -/
theorem claim_C7_witness :
    update_module exampleRegistry "auth" c7Update2 = Except.ok c7After
    ∧ c7Update2.created_at = none
    ∧ (∃ pre r post r1, exampleRegistry.modules = pre ++ r :: post
        ∧ c7After.modules = pre ++ r1 :: post
        ∧ r.name = "auth" ∧ (∀ x ∈ pre, x.name ≠ "auth")
        ∧ r1.created_at = r.created_at
        ∧ (c7Update2.name = none → r1.name = r.name)
        ∧ (c7Update2.path = none → r1.path = r.path)
        ∧ (c7Update2.status = none → r1.status = r.status)
        ∧ (c7Update2.description = none → r1.description = r.description)
        ∧ (c7Update2.dependencies = none → r1.dependencies = r.dependencies)
        ∧ (c7Update2.exports = none → r1.exports = r.exports)
        ∧ (c7Update2.phases_completed = none → r1.phases_completed = r.phases_completed)
        ∧ (c7Update2.metadata = none → r1.metadata = r.metadata)) := by
  refine ⟨by decide, rfl, claim_C7 exampleRegistry "auth" c7Update2 c7After (by decide) rfl⟩

/-- C8: `update_module` (both calling styles) on a non-existent name
returns the `ModuleError` "not found" (raised before any mutation, so the
state is unchanged); `remove_module` on a non-existent name likewise; and
on an existing name `remove_module` returns a state in which the name no
longer appears (the reserved fields untouched). -/
theorem claim_C8 (st : RegistryData) (nm : String) (u : ModuleUpdate) (mo : ConfigModule) :
    (nm ∉ st.modules.map ModuleRecord.name →
      update_module st nm u =
        Except.error (VibecraftError.moduleError ("Module '" ++ nm ++ "' not found"))
      ∧ remove_module st nm =
        Except.error (VibecraftError.moduleError ("Module '" ++ nm ++ "' not found")))
    ∧ (mo.name ∉ st.modules.map ModuleRecord.name →
      update_module_obj st mo =
        Except.error (VibecraftError.moduleError ("Module '" ++ mo.name ++ "' not found")))
    ∧ (nm ∈ st.modules.map ModuleRecord.name →
      ∃ st1, remove_module st nm = Except.ok st1
        ∧ nm ∉ st1.modules.map ModuleRecord.name
        ∧ st1.dependencies = st.dependencies ∧ st1.build_order = st.build_order) := by
  refine ⟨?_, ?_, ?_⟩
  · intro hnot
    have hall : ∀ r ∈ st.modules, r.name ≠ nm := by
      intro r hr heq
      exact hnot (heq ▸ List.mem_map_of_mem _ hr)
    have hm : has_module st nm = false := by
      cases hb : has_module st nm
      · rfl
      · exact absurd ((has_module_iff st nm).mp hb) hnot
    constructor
    · unfold update_module
      rw [(updateFirst_none nm u st.modules).mpr hall]
    · unfold remove_module
      rw [hm]
      rfl
  · intro hnot
    have hall : ∀ r ∈ st.modules, r.name ≠ mo.name := by
      intro r hr heq
      exact hnot (heq ▸ List.mem_map_of_mem _ hr)
    unfold update_module_obj
    rw [(replaceFirst_none mo.name (module_to_dict mo) st.modules).mpr hall]
  · intro hex
    have hm : has_module st nm = true := (has_module_iff st nm).mpr hex
    refine ⟨{ st with modules := st.modules.filter (fun r => !(r.name == nm)) }, ?_, ?_, rfl, rfl⟩
    · unfold remove_module
      rw [hm]
      rfl
    · intro hcontra
      rcases List.mem_map.mp hcontra with ⟨r2, hr2, hname2⟩
      rcases List.mem_filter.mp hr2 with ⟨_, hb⟩
      rw [hname2] at hb
      simp at hb

/-- Witness for C8: the missing name `ghost` and the existing name `auth`
on the example registry. -/
theorem claim_C8_witness :
    ("ghost" ∉ exampleRegistry.modules.map ModuleRecord.name)
    ∧ (update_module exampleRegistry "ghost" c7Update2 =
        Except.error (VibecraftError.moduleError "Module 'ghost' not found")
      ∧ remove_module exampleRegistry "ghost" =
        Except.error (VibecraftError.moduleError "Module 'ghost' not found"))
    ∧ (update_module_obj exampleRegistry { name := "ghost" } =
        Except.error (VibecraftError.moduleError "Module 'ghost' not found"))
    ∧ ("auth" ∈ exampleRegistry.modules.map ModuleRecord.name)
    ∧ (∃ st1, remove_module exampleRegistry "auth" = Except.ok st1
        ∧ "auth" ∉ st1.modules.map ModuleRecord.name
        ∧ st1.dependencies = exampleRegistry.dependencies
        ∧ st1.build_order = exampleRegistry.build_order) := by
  have hg := claim_C8 exampleRegistry "ghost" c7Update2 { name := "ghost" }
  have ha := claim_C8 exampleRegistry "auth" c7Update2 { name := "ghost" }
  have hno : "ghost" ∉ exampleRegistry.modules.map ModuleRecord.name := by decide
  exact ⟨hno, hg.1 hno, hg.2.1 hno, by decide, ha.2.2 (by decide)⟩

end Vibecraft
